import Mathlib

/-!
Merge of two integer arrays into a linked list through a dynamically loaded append.

A shallow embedding of `src/gcc/testdl.c`.

* The global arrays `list1`, `list2` become explicit `Array Int` parameters; the loop
  bounds `list1_num`, `list2_num` are the sizes of those arrays.  A C `int` value is an
  `Int`: the merge loop only compares and copies values, so no arithmetic can overflow.
  The counters `pos1`, `pos2` are `Nat` (they start at 0 and only grow by one).
* The callable `fn` obtained from `dlsym` is a parameter of the loops: a function from the
  caller-visible list state and the appended value to the new list state.
* `Node`, the heap and the body of `addResult` live in `list.h` / `liblist.so`, which are
  not part of the sources; `Node` is reconstructed from the field accesses of `main`.
-/

namespace TestDl

/-! ## The merge-drive loops of `main` (lines 96-130) -/

/-- Local variables of `main` that the three loops update: the two position counters and
the list state seen through `&result_head, &result_tail`. -/
structure Drive (σ : Type) where
  pos1 : Nat
  pos2 : Nat
  result : σ

/-- First loop, `while(pos1 < list1_num && pos2 < list2_num)`, lines 99-119. -/
def bothLoop {σ : Type} (fn : σ → Int → σ) (list1 list2 : Array Int)
    (pos1 pos2 : Nat) (result : σ) : Drive σ :=
  if h : pos1 < list1.size ∧ pos2 < list2.size then
    if list1[pos1] < list2[pos2] then
      bothLoop fn list1 list2 (pos1 + 1) pos2 (fn result list1[pos1])
    else if list1[pos1] > list2[pos2] then
      bothLoop fn list1 list2 pos1 (pos2 + 1) (fn result list2[pos2])
    else
      bothLoop fn list1 list2 (pos1 + 1) (pos2 + 1) (fn result list1[pos1])
  else
    ⟨pos1, pos2, result⟩
termination_by (list1.size - pos1) + (list2.size - pos2)
decreasing_by all_goals (simp_wf; omega)

/-- Second loop, `while(pos1 < list1_num)`, lines 121-125; returns the new `pos1` and list
state. -/
def rest1Loop {σ : Type} (fn : σ → Int → σ) (list1 : Array Int)
    (pos1 : Nat) (result : σ) : Nat × σ :=
  if h : pos1 < list1.size then
    rest1Loop fn list1 (pos1 + 1) (fn result list1[pos1])
  else
    (pos1, result)
termination_by list1.size - pos1

/-- Third loop, `while(pos2 < list2_num)`, lines 126-130; returns the new `pos2` and list
state. -/
def rest2Loop {σ : Type} (fn : σ → Int → σ) (list2 : Array Int)
    (pos2 : Nat) (result : σ) : Nat × σ :=
  if h : pos2 < list2.size then
    rest2Loop fn list2 (pos2 + 1) (fn result list2[pos2])
  else
    (pos2, result)
termination_by list2.size - pos2

/-- Lines 96-130: `pos1 = 0, pos2 = 0`, then the three loops in sequence, starting from the
list state `result`. -/
def mergeDrive {σ : Type} (fn : σ → Int → σ) (list1 list2 : Array Int) (result : σ) :
    Drive σ :=
  let d := bothLoop fn list1 list2 0 0 result
  let r1 := rest1Loop fn list1 d.pos1 d.result
  let r2 := rest2Loop fn list2 d.pos2 r1.2
  ⟨r1.1, r2.1, r2.2⟩

/-- The recording callable: it keeps the values it was called with, in call order. -/
def record (calls : List Int) (value : Int) : List Int :=
  calls ++ [value]

/-- The merged output: the sequence of values `main` passes to `fn`, in call order. -/
def merged (A B : Array Int) : List Int :=
  (mergeDrive record A B []).result

/-! ## List-level description of the three loops (proof device) -/

/-- What the three loops append when `xs` and `ys` are the unread parts of the arrays. -/
def mergeTail : List Int → List Int → List Int
  | [], ys => ys
  | x :: xs, [] => x :: xs
  | x :: xs, y :: ys =>
    if x < y then x :: mergeTail xs (y :: ys)
    else if x > y then y :: mergeTail (x :: xs) ys
    else x :: mergeTail xs ys

/-! ## Nodes and the heap -/

/-- The `Node` of `list.h`, as `main` uses it: `p->val` is an `int`, `p->next` a `Node*`
(`none` is `NULL`, `some a` the node at address `a`). -/
structure Node where
  val : Int
  next : Option Nat
  deriving DecidableEq, Repr

/-- The heap of nodes: the cell at index `a` is `some nd` while the node at address `a` is
allocated and `none` once it is freed; addresses past the end were never allocated. -/
abbrev Heap := List (Option Node)

/-- Dereference of a node pointer; `none` when the address holds no allocated node. -/
def Heap.read (heap : Heap) (a : Nat) : Option Node :=
  (heap[a]?).join

/-- The call `free(p)` for the node at address `a`. -/
def Heap.free (heap : Heap) (a : Nat) : Heap :=
  heap.set a none

/-- Number of allocated nodes. -/
def Heap.live (heap : Heap) : Nat :=
  heap.countP Option.isSome

/-- The list handle of `main`: the heap together with `result_head` and `result_tail`. -/
structure ListState where
  heap : Heap
  head : Option Nat
  tail : Option Nat
  deriving DecidableEq, Repr

/-- State at line 96: `Node *result_head = NULL, *result_tail = NULL`, nothing allocated. -/
def ListState.init : ListState :=
  ⟨[], none, none⟩

/-- Modelled from the spec: the body of `addResult` (in `liblist.so`, declared in `list.h`)
is not among the sources. Following section 4.1 it constructs one new node holding `value`,
makes it the new head if the list was empty (head absent) and otherwise links it after the
current tail, and updates the head and tail references. Allocation always succeeds and
returns an address never used before. The result is `none` where the spec gives no
behaviour: head present with the tail absent or not an allocated node. -/
def addResult (s : ListState) (value : Int) : Option ListState :=
  let node := s.heap.length
  let heap1 : Heap := s.heap ++ [some ⟨value, none⟩]
  match s.head with
  | none => some ⟨heap1, some node, some node⟩
  | some hd =>
    match s.tail with
    | none => none
    | some t =>
      match heap1.read t with
      | none => none
      | some tn => some ⟨heap1.set t (some ⟨tn.val, some node⟩), some hd, some node⟩

/-! ## Post-processing and teardown (lines 142-162) -/

/-- Lines 142-147: `for(Node* p = result_head; p != NULL; p = p->next)` printing
`sqrt((double)(p->val))`. The transform `sqrt` is a parameter and `out` collects the printed
lines. The loop changes no memory, so a cyclic chain never ends it; `fuel` bounds the number
of iterations, and the result is `none` when the fuel runs out or `p` is not an allocated
node. -/
def walkLoop {ρ : Type} (sqrt : Int → ρ) (heap : Heap) :
    Nat → Option Nat → List ρ → Option (List ρ)
  | _, none, out => some out
  | 0, some _, _ => none
  | fuel + 1, some a, out =>
    match heap.read a with
    | none => none
    | some nd => walkLoop sqrt heap fuel nd.next (out ++ [sqrt nd.val])

/-- Lines 152-160: `for(Node* p = result_head; p != NULL; )` with body
`tmp = p->next; free(p); p = tmp`. Returns the heap after the loop and the addresses passed
to `free`, in call order; `none` when `p` is not an allocated node. -/
def releaseLoop (heap : Heap) (p : Option Nat) (freed : List Nat) :
    Option (Heap × List Nat) :=
  match p with
  | none => some (heap, freed)
  | some a =>
    match h : heap.read a with
    | none => none
    | some nd => releaseLoop (heap.free a) nd.next (freed ++ [a])
termination_by heap.live
decreasing_by
  simp_wf
  have hlt : a < heap.length := by
    by_contra hge
    have hnone : heap[a]? = none := List.getElem?_eq_none (by omega)
    simp [Heap.read, hnone] at h
  have hcell : heap[a] = some nd := by
    have hget : heap[a]? = some heap[a] := List.getElem?_eq_getElem hlt
    rw [Heap.read, hget] at h
    simpa using h
  have hpos : 0 < List.countP Option.isSome heap :=
    List.countP_pos_iff.mpr ⟨heap[a], List.getElem_mem hlt, by simp [hcell]⟩
  simp only [Heap.live, Heap.free]
  rw [List.countP_set Option.isSome heap a none hlt, hcell]
  simp only [Option.isSome, if_true, Bool.false_eq_true, if_false]
  omega

/-- Lines 152-162: the release loop from `result_head`, then
`result_head = result_tail = NULL`. Returns the new handle and the freed addresses. -/
def teardown (s : ListState) : Option (ListState × List Nat) :=
  match releaseLoop s.heap s.head [] with
  | none => none
  | some (heap, freed) => some (⟨heap, none, none⟩, freed)

/-! ## `produceData` and `main` -/

/-- The constant `list1_num` (`#define list1_num 1000`). -/
def list1_num : Nat := 1000

/-- The constant `list2_num` (`#define list2_num 1000`). -/
def list2_num : Nat := 1000

/-- Lines 47-58: the two `for` loops of `produceData` over the zero-initialised globals;
returns `(list1, list2)`. -/
def produceData : Array Int × Array Int :=
  let list1 := (List.range list1_num).foldl
    (fun (arr : Array Int) i => arr.setD i (2 * (i : Int) + 1)) (mkArray list1_num 0)
  let list2 := (List.range list2_num).foldl
    (fun (arr : Array Int) i => arr.setD i (2 * ((i : Int) + 1))) (mkArray list2_num 0)
  (list1, list2)

/-- What a run of `main` shows: the exit status, the values passed to the loaded callable in
call order, and the printed result lines. -/
structure Outcome (ρ : Type) where
  status : Nat
  calls : List Int
  printed : List ρ

/-- The callable of `main` with the call recorded: `fn` acts on the list handle (`none`
once a call had no defined behaviour) and the value is added to the record of calls. -/
def tracked (fn : ListState → Int → Option ListState)
    (st : List Int × Option ListState) (value : Int) : List Int × Option ListState :=
  (record st.1 value, st.2.bind fun s => fn s value)

/-- Lines 74-164 of `main`, all that follows the call `produceData()`, on the globals
`list1`, `list2`. Inputs: `lib_handle`, the result of `dlopen` (`none` is `NULL`); `fn`,
the callable returned by `dlsym`; `error`, the result of `dlerror()` after `dlsym` (`none`
is `NULL`); `sqrt`, the numeric transform. The result is `none` when the run has no defined
outcome: a call of `fn`, the walk or the release loop fails. The two `getchar()` pauses and
the fixed `printf` lines are not modelled. -/
def mainAfterData {ρ : Type} (sqrt : Int → ρ) (list1 list2 : Array Int)
    (lib_handle : Option Nat) (fn : ListState → Int → Option ListState)
    (error : Option String) : Option (Outcome ρ) :=
  match lib_handle with
  | none => some ⟨1, [], []⟩
  | some _ =>
    match error with
    | some _ => some ⟨1, [], []⟩
    | none =>
      let d := mergeDrive (tracked fn) list1 list2 ([], some ListState.init)
      match d.result.2 with
      | none => none
      | some s =>
        match walkLoop sqrt s.heap s.heap.length s.head [] with
        | none => none
        | some printed =>
          match teardown s with
          | none => none
          | some _ => some ⟨0, d.result.1, printed⟩

/-- The function `main`, lines 68-165: `produceData()` fills the globals, then the rest of
the body runs on them. -/
def main {ρ : Type} (sqrt : Int → ρ) (lib_handle : Option Nat)
    (fn : ListState → Int → Option ListState) (error : Option String) :
    Option (Outcome ρ) :=
  let data := produceData
  mainAfterData sqrt data.1 data.2 lib_handle fn error

/-! ## Well-formed lists -/

/-- The chain of nodes reached from pointer `p` by following `next` up to `NULL`:
`cells` lists the address and value of each node in order. -/
def Chain (heap : Heap) : Option Nat → List (Nat × Int) → Prop
  | p, [] => p = none
  | p, c :: cells => p = some c.1 ∧ ∃ nxt, heap.read c.1 = some ⟨c.2, nxt⟩ ∧ Chain heap nxt cells

/-- The input constraint of the append operation: head and tail either both denote the
empty list (`cells = []`) or a valid non-empty list (the chain from head ends in a node
without successor) whose last node is the tail. -/
def ValidHandle (s : ListState) (cells : List (Nat × Int)) : Prop :=
  Chain s.heap s.head cells ∧ s.tail = cells.getLast?.map Prod.fst

/-- The contract of section 4.1 for a callable `fn`: on a valid handle it succeeds, creates
one node `n` holding the value, and the list becomes the previous cells followed by it. -/
def AppendContract (fn : ListState → Int → Option ListState) : Prop :=
  ∀ (s : ListState) (cells : List (Nat × Int)) (value : Int), ValidHandle s cells →
    ∃ s2 n, fn s value = some s2 ∧ ValidHandle s2 (cells ++ [(n, value)])

/-! ## One iteration at a time: the states the loops pass through -/

/-- One iteration of the first loop (the body at lines 101-118) from the state `d`; `none`
when the condition `pos1 < list1_num && pos2 < list2_num` is false and the loop ends. -/
def bothStep {σ : Type} (fn : σ → Int → σ) (list1 list2 : Array Int) (d : Drive σ) :
    Option (Drive σ) :=
  if h : d.pos1 < list1.size ∧ d.pos2 < list2.size then
    if list1[d.pos1] < list2[d.pos2] then
      some ⟨d.pos1 + 1, d.pos2, fn d.result list1[d.pos1]⟩
    else if list1[d.pos1] > list2[d.pos2] then
      some ⟨d.pos1, d.pos2 + 1, fn d.result list2[d.pos2]⟩
    else
      some ⟨d.pos1 + 1, d.pos2 + 1, fn d.result list1[d.pos1]⟩
  else
    none

/-- One iteration of the second loop (lines 122-125); `none` when `pos1 < list1_num` is
false. -/
def rest1Step {σ : Type} (fn : σ → Int → σ) (list1 : Array Int) (d : Drive σ) :
    Option (Drive σ) :=
  if h : d.pos1 < list1.size then
    some ⟨d.pos1 + 1, d.pos2, fn d.result list1[d.pos1]⟩
  else
    none

/-- One iteration of the third loop (lines 127-130); `none` when `pos2 < list2_num` is
false. -/
def rest2Step {σ : Type} (fn : σ → Int → σ) (list2 : Array Int) (d : Drive σ) :
    Option (Drive σ) :=
  if h : d.pos2 < list2.size then
    some ⟨d.pos1, d.pos2 + 1, fn d.result list2[d.pos2]⟩
  else
    none

/-- The states at the head of the loops of `main`: `Visits fn list1 list2 result k d` says
that control reaches the condition of loop `k` (1, 2 or 3) in state `d`, starting from
`pos1 = 0, pos2 = 0` and the list state `result`. -/
inductive Visits {σ : Type} (fn : σ → Int → σ) (list1 list2 : Array Int) (result : σ) :
    Nat → Drive σ → Prop
  | start : Visits fn list1 list2 result 1 ⟨0, 0, result⟩
  | both {d d2 : Drive σ} : Visits fn list1 list2 result 1 d →
      bothStep fn list1 list2 d = some d2 → Visits fn list1 list2 result 1 d2
  | bothDone {d : Drive σ} : Visits fn list1 list2 result 1 d →
      bothStep fn list1 list2 d = none → Visits fn list1 list2 result 2 d
  | rest1 {d d2 : Drive σ} : Visits fn list1 list2 result 2 d →
      rest1Step fn list1 d = some d2 → Visits fn list1 list2 result 2 d2
  | rest1Done {d : Drive σ} : Visits fn list1 list2 result 2 d →
      rest1Step fn list1 d = none → Visits fn list1 list2 result 3 d
  | rest2 {d d2 : Drive σ} : Visits fn list1 list2 result 3 d →
      rest2Step fn list2 d = some d2 → Visits fn list1 list2 result 3 d2

/-- Lines 142-147 as a step of `main` on the list handle: the walk from `result_head`
printing one line per node. The loop assigns only its locals `p` and `r`, so the handle and
the heap come back as they were; the second component is the printed lines. -/
def postProcess {ρ : Type} (sqrt : Int → ρ) (s : ListState) : Option (ListState × List ρ) :=
  match walkLoop sqrt s.heap s.heap.length s.head [] with
  | none => none
  | some printed => some (s, printed)

/-! ## The loops as folds over the unread parts of the arrays -/

theorem mergeTail_nil_right (xs : List Int) : mergeTail xs [] = xs := by
  cases xs <;> simp [mergeTail]

theorem drop_cons_of_lt (A : Array Int) (i : Nat) (h : i < A.size) :
    A.toList.drop i = A[i] :: A.toList.drop (i + 1) := by
  have h2 : i < A.toList.length := by simpa using h
  rw [List.drop_eq_getElem_cons h2]
  rfl

theorem rest1Loop_eq {σ : Type} (fn : σ → Int → σ) (list1 : Array Int) (pos1 : Nat)
    (result : σ) :
    rest1Loop fn list1 pos1 result
      = (max pos1 list1.size, (list1.toList.drop pos1).foldl fn result) := by
  induction pos1, result using rest1Loop.induct fn list1 with
  | case1 pos1 result h ih =>
    rw [rest1Loop, dif_pos h, ih, drop_cons_of_lt list1 pos1 h]
    simp only [List.foldl_cons, Prod.mk.injEq, and_true]
    omega
  | case2 pos1 result h =>
    rw [rest1Loop, dif_neg h]
    have hdrop : list1.toList.drop pos1 = [] := List.drop_eq_nil_of_le (by simp; omega)
    simp only [hdrop, List.foldl_nil, Prod.mk.injEq, and_true]
    omega

theorem rest2Loop_eq {σ : Type} (fn : σ → Int → σ) (list2 : Array Int) (pos2 : Nat)
    (result : σ) :
    rest2Loop fn list2 pos2 result
      = (max pos2 list2.size, (list2.toList.drop pos2).foldl fn result) := by
  induction pos2, result using rest2Loop.induct fn list2 with
  | case1 pos2 result h ih =>
    rw [rest2Loop, dif_pos h, ih, drop_cons_of_lt list2 pos2 h]
    simp only [List.foldl_cons, Prod.mk.injEq, and_true]
    omega
  | case2 pos2 result h =>
    rw [rest2Loop, dif_neg h]
    have hdrop : list2.toList.drop pos2 = [] := List.drop_eq_nil_of_le (by simp; omega)
    simp only [hdrop, List.foldl_nil, Prod.mk.injEq, and_true]
    omega

/-- The list state after the three loops, started at positions `pos1`, `pos2`. -/
theorem loops_result {σ : Type} (fn : σ → Int → σ) (list1 list2 : Array Int)
    (pos1 pos2 : Nat) (result : σ) :
    (rest2Loop fn list2 (bothLoop fn list1 list2 pos1 pos2 result).pos2
        (rest1Loop fn list1 (bothLoop fn list1 list2 pos1 pos2 result).pos1
          (bothLoop fn list1 list2 pos1 pos2 result).result).2).2
      = (mergeTail (list1.toList.drop pos1) (list2.toList.drop pos2)).foldl fn result := by
  induction pos1, pos2, result using bothLoop.induct fn list1 list2 with
  | case1 pos1 pos2 result h hlt ih =>
    rw [bothLoop, dif_pos h, if_pos hlt, ih, drop_cons_of_lt list1 pos1 h.1,
      drop_cons_of_lt list2 pos2 h.2, mergeTail, if_pos hlt]
    rfl
  | case2 pos1 pos2 result h hlt hgt ih =>
    rw [bothLoop, dif_pos h, if_neg hlt, if_pos hgt, ih, drop_cons_of_lt list1 pos1 h.1,
      drop_cons_of_lt list2 pos2 h.2, mergeTail, if_neg hlt, if_pos hgt]
    rfl
  | case3 pos1 pos2 result h hlt hgt ih =>
    rw [bothLoop, dif_pos h, if_neg hlt, if_neg hgt, ih, drop_cons_of_lt list1 pos1 h.1,
      drop_cons_of_lt list2 pos2 h.2, mergeTail, if_neg hlt, if_neg hgt]
    rfl
  | case4 pos1 pos2 result h =>
    rw [bothLoop, dif_neg h, rest1Loop_eq, rest2Loop_eq]
    by_cases h1 : pos1 < list1.size
    · have h2 : ¬ pos2 < list2.size := fun h2 => h ⟨h1, h2⟩
      have hdrop : list2.toList.drop pos2 = [] := List.drop_eq_nil_of_le (by simp; omega)
      simp only [hdrop, mergeTail_nil_right, List.foldl_nil]
    · have hdrop : list1.toList.drop pos1 = [] := List.drop_eq_nil_of_le (by simp; omega)
      simp only [hdrop, mergeTail, List.foldl_nil]

/-- Whatever the callable, the list state after `mergeDrive` is the fold of the callable
over `mergeTail` of the two arrays. -/
theorem mergeDrive_result {σ : Type} (fn : σ → Int → σ) (list1 list2 : Array Int)
    (result : σ) :
    (mergeDrive fn list1 list2 result).result
      = (mergeTail list1.toList list2.toList).foldl fn result := by
  have h := loops_result fn list1 list2 0 0 result
  simpa [mergeDrive] using h

theorem foldl_record (vs calls : List Int) : vs.foldl record calls = calls ++ vs := by
  induction vs generalizing calls with
  | nil => simp
  | cons v vs ih => simp [ih, record]

theorem merged_eq (A B : Array Int) : merged A B = mergeTail A.toList B.toList := by
  rw [merged, mergeDrive_result, foldl_record]
  simp

/-! ## Properties of the list-level merge -/

theorem mem_mergeTail (v : Int) (xs ys : List Int) :
    v ∈ mergeTail xs ys ↔ v ∈ xs ∨ v ∈ ys := by
  induction xs, ys using mergeTail.induct with
  | case1 ys => simp [mergeTail]
  | case2 x xs => simp [mergeTail]
  | case3 x xs y ys hlt ih =>
    rw [mergeTail, if_pos hlt, List.mem_cons, ih, List.mem_cons (a := v) (b := x)]
    tauto
  | case4 x xs y ys hlt hgt ih =>
    rw [mergeTail, if_neg hlt, if_pos hgt, List.mem_cons, ih, List.mem_cons (a := v) (b := y)]
    tauto
  | case5 x xs y ys hlt hgt ih =>
    have hxy : x = y := by omega
    subst hxy
    rw [mergeTail, if_neg hlt, if_neg hgt, List.mem_cons, ih, List.mem_cons (a := v) (b := x),
      List.mem_cons (a := v) (b := x)]
    tauto

theorem mergeTail_pairwise (xs ys : List Int) (hx : xs.Pairwise (· < ·))
    (hy : ys.Pairwise (· < ·)) : (mergeTail xs ys).Pairwise (· < ·) := by
  induction xs, ys using mergeTail.induct with
  | case1 ys => simpa [mergeTail] using hy
  | case2 x xs => simpa [mergeTail] using hx
  | case3 x xs y ys hlt ih =>
    rw [mergeTail, if_pos hlt, List.pairwise_cons]
    have hx2 := List.pairwise_cons.mp hx
    have hy2 := List.pairwise_cons.mp hy
    refine ⟨fun z hz => ?_, ih hx2.2 hy⟩
    rcases (mem_mergeTail z xs (y :: ys)).mp hz with h | h
    · exact hx2.1 z h
    · rcases List.mem_cons.mp h with h | h
      · omega
      · have := hy2.1 z h
        omega
  | case4 x xs y ys hlt hgt ih =>
    rw [mergeTail, if_neg hlt, if_pos hgt, List.pairwise_cons]
    have hx2 := List.pairwise_cons.mp hx
    have hy2 := List.pairwise_cons.mp hy
    refine ⟨fun z hz => ?_, ih hx hy2.2⟩
    rcases (mem_mergeTail z (x :: xs) ys).mp hz with h | h
    · rcases List.mem_cons.mp h with h | h
      · omega
      · have := hx2.1 z h
        omega
    · exact hy2.1 z h
  | case5 x xs y ys hlt hgt ih =>
    rw [mergeTail, if_neg hlt, if_neg hgt, List.pairwise_cons]
    have hx2 := List.pairwise_cons.mp hx
    have hy2 := List.pairwise_cons.mp hy
    refine ⟨fun z hz => ?_, ih hx2.2 hy2.2⟩
    rcases (mem_mergeTail z xs ys).mp hz with h | h
    · exact hx2.1 z h
    · have := hy2.1 z h
      omega

theorem mergeTail_length_le (xs ys : List Int) :
    (mergeTail xs ys).length ≤ xs.length + ys.length := by
  induction xs, ys using mergeTail.induct with
  | case1 ys => simp [mergeTail]
  | case2 x xs => simp [mergeTail]
  | case3 x xs y ys hlt ih =>
    rw [mergeTail, if_pos hlt]
    simp only [List.length_cons] at ih ⊢
    omega
  | case4 x xs y ys hlt hgt ih =>
    rw [mergeTail, if_neg hlt, if_pos hgt]
    simp only [List.length_cons] at ih ⊢
    omega
  | case5 x xs y ys hlt hgt ih =>
    rw [mergeTail, if_neg hlt, if_neg hgt]
    simp only [List.length_cons] at ih ⊢
    omega

theorem pairwise_lt_nodup (l : List Int) (h : l.Pairwise (· < ·)) : l.Nodup :=
  h.imp (fun hab => ne_of_lt hab)

theorem mergeTail_toFinset (xs ys : List Int) :
    (mergeTail xs ys).toFinset = xs.toFinset ∪ ys.toFinset := by
  ext v
  simp [mem_mergeTail]

/-! ## The merge-drive loop: claims C1 to C7 -/

/-- C1: for strictly increasing arrays `A` and `B`, the list of values passed to the append
callable by the merge-drive loop, in call order, is strictly increasing. -/
theorem merged_strictly_increasing (A B : Array Int)
    (hA : A.toList.Pairwise (· < ·)) (hB : B.toList.Pairwise (· < ·)) :
    (merged A B).Pairwise (· < ·) := by
  rw [merged_eq]
  exact mergeTail_pairwise _ _ hA hB

theorem merged_strictly_increasing_witness :
    (#[1, 3, 5, 7] : Array Int).toList.Pairwise (· < ·) ∧
    (#[2, 4, 5, 8] : Array Int).toList.Pairwise (· < ·) ∧
    (merged #[1, 3, 5, 7] #[2, 4, 5, 8]).Pairwise (· < ·) :=
  ⟨by decide, by decide, merged_strictly_increasing _ _ (by decide) (by decide)⟩

/-- C2: with no sortedness assumed, a value occurs in the merged output if and only if it
occurs in `A` or in `B`. -/
theorem mem_merged_iff (A B : Array Int) (v : Int) :
    v ∈ merged A B ↔ v ∈ A.toList ∨ v ∈ B.toList := by
  rw [merged_eq]
  exact mem_mergeTail v _ _

/-- C3: for strictly increasing arrays `A` and `B`, a value that occurs in both (once in
each, as they are strictly increasing) occurs exactly once in the merged output, wherever it
stands in `A` and in `B`. -/
theorem merged_common_once (A B : Array Int)
    (hA : A.toList.Pairwise (· < ·)) (hB : B.toList.Pairwise (· < ·))
    (v : Int) (hvA : v ∈ A.toList) (hvB : v ∈ B.toList) :
    A.toList.count v = 1 ∧ B.toList.count v = 1 ∧ (merged A B).count v = 1 := by
  have hnodup : (merged A B).Nodup := by
    rw [merged_eq]
    exact pairwise_lt_nodup _ (mergeTail_pairwise _ _ hA hB)
  have hmem : v ∈ merged A B := by
    rw [merged_eq]
    exact (mem_mergeTail v _ _).mpr (Or.inl hvA)
  exact ⟨List.count_eq_one_of_mem (pairwise_lt_nodup _ hA) hvA,
    List.count_eq_one_of_mem (pairwise_lt_nodup _ hB) hvB,
    List.count_eq_one_of_mem hnodup hmem⟩

theorem merged_common_once_witness :
    (#[1, 3, 5, 7] : Array Int).toList.Pairwise (· < ·) ∧
    (#[2, 4, 5, 8] : Array Int).toList.Pairwise (· < ·) ∧
    (5 : Int) ∈ (#[1, 3, 5, 7] : Array Int).toList ∧
    (5 : Int) ∈ (#[2, 4, 5, 8] : Array Int).toList ∧
    (#[1, 3, 5, 7] : Array Int).toList.count 5 = 1 ∧
    (#[2, 4, 5, 8] : Array Int).toList.count 5 = 1 ∧
    (merged #[1, 3, 5, 7] #[2, 4, 5, 8]).count 5 = 1 :=
  ⟨by decide, by decide, by decide, by decide,
    merged_common_once _ _ (by decide) (by decide) 5 (by decide) (by decide)⟩

/-- C4: for strictly increasing arrays `A` and `B`, the length of the merged output is the
number of distinct values of `A` and `B` together, which is `lenA + lenB` minus the number
of values common to both. -/
theorem merged_length_eq_card (A B : Array Int)
    (hA : A.toList.Pairwise (· < ·)) (hB : B.toList.Pairwise (· < ·)) :
    (merged A B).length = (A.toList.toFinset ∪ B.toList.toFinset).card ∧
    (merged A B).length
      = A.size + B.size - (A.toList.toFinset ∩ B.toList.toFinset).card := by
  have hnodup : (mergeTail A.toList B.toList).Nodup :=
    pairwise_lt_nodup _ (mergeTail_pairwise _ _ hA hB)
  have hlen : (mergeTail A.toList B.toList).length
      = (A.toList.toFinset ∪ B.toList.toFinset).card := by
    rw [← mergeTail_toFinset, List.toFinset_card_of_nodup hnodup]
  have hcA : A.toList.toFinset.card = A.size := by
    rw [List.toFinset_card_of_nodup (pairwise_lt_nodup _ hA)]
  have hcB : B.toList.toFinset.card = B.size := by
    rw [List.toFinset_card_of_nodup (pairwise_lt_nodup _ hB)]
  have hui := Finset.card_union_add_card_inter A.toList.toFinset B.toList.toFinset
  rw [merged_eq]
  refine ⟨hlen, ?_⟩
  omega

theorem merged_length_eq_card_witness :
    (#[1, 3, 5, 7] : Array Int).toList.Pairwise (· < ·) ∧
    (#[2, 4, 5, 8] : Array Int).toList.Pairwise (· < ·) ∧
    (merged #[1, 3, 5, 7] #[2, 4, 5, 8]).length
      = ((#[1, 3, 5, 7] : Array Int).toList.toFinset
          ∪ (#[2, 4, 5, 8] : Array Int).toList.toFinset).card ∧
    (merged #[1, 3, 5, 7] #[2, 4, 5, 8]).length
      = (#[1, 3, 5, 7] : Array Int).size + (#[2, 4, 5, 8] : Array Int).size
        - ((#[1, 3, 5, 7] : Array Int).toList.toFinset
            ∩ (#[2, 4, 5, 8] : Array Int).toList.toFinset).card :=
  ⟨by decide, by decide, merged_length_eq_card _ _ (by decide) (by decide)⟩

/-- C5: on `A = [1,3,5,7]` and `B = [2,4,5,8]` the merge-drive loop produces exactly
`[1,2,3,4,5,7,8]`; the shared value 5 is present once. -/
theorem merged_example :
    merged #[1, 3, 5, 7] #[2, 4, 5, 8] = [1, 2, 3, 4, 5, 7, 8] ∧
    (merged #[1, 3, 5, 7] #[2, 4, 5, 8]).count 5 = 1 := by
  have h : merged #[1, 3, 5, 7] #[2, 4, 5, 8] = [1, 2, 3, 4, 5, 7, 8] := by
    rw [merged_eq]
    simp [mergeTail]
  rw [h]
  exact ⟨rfl, by decide⟩

/-- C6: when one input is empty the merge is a straight copy of the other, whether sorted
or not; in particular `A = []`, `B = [2,4,6]` gives `[2,4,6]`. -/
theorem merged_empty (A B : Array Int) :
    merged #[] B = B.toList ∧ merged A #[] = A.toList ∧
    merged #[] #[2, 4, 6] = [2, 4, 6] := by
  refine ⟨?_, ?_, ?_⟩
  · rw [merged_eq]
    simp [mergeTail]
  · rw [merged_eq]
    simp [mergeTail_nil_right]
  · rw [merged_eq]
    simp [mergeTail]

/-- C7: the merged output has length at most `lenA + lenB`: the merge-drive loop calls the
append callable at most that many times. -/
theorem merged_length_le (A B : Array Int) :
    (merged A B).length ≤ A.size + B.size := by
  rw [merged_eq]
  simpa using mergeTail_length_le A.toList B.toList

/-! ## Heap and chain lemmas -/

theorem read_lt {heap : Heap} {a : Nat} {nd : Node} (h : heap.read a = some nd) :
    a < heap.length := by
  by_contra hge
  have hnone : heap[a]? = none := List.getElem?_eq_none (by omega)
  simp [Heap.read, hnone] at h

theorem read_length (heap : Heap) : heap.read heap.length = none := by
  simp [Heap.read]

theorem read_append_of_lt (heap more : Heap) {a : Nat} (h : a < heap.length) :
    Heap.read (heap ++ more) a = heap.read a := by
  simp [Heap.read, List.getElem?_append_left h]

theorem read_append_new (heap : Heap) (nd : Node) :
    Heap.read (heap ++ [some nd]) heap.length = some nd := by
  simp [Heap.read]

theorem read_set_ne (heap : Heap) {a b : Nat} (c : Option Node) (h : b ≠ a) :
    Heap.read (heap.set b c) a = heap.read a := by
  simp [Heap.read, List.getElem?_set_ne h]

theorem read_set_eq (heap : Heap) {a : Nat} (c : Option Node) (h : a < heap.length) :
    Heap.read (heap.set a c) a = c := by
  simp [Heap.read, List.getElem?_set, h]

theorem chain_frame {heap heap2 : Heap} :
    ∀ (cells : List (Nat × Int)) (p : Option Nat), Chain heap p cells →
      (∀ c ∈ cells, heap2.read c.1 = heap.read c.1) → Chain heap2 p cells
  | [], _, h, _ => h
  | c :: cells, _, ⟨hp, nxt, hread, hrest⟩, hsame =>
    ⟨hp, nxt, by rw [hsame c (List.mem_cons_self _ _), hread],
      chain_frame cells nxt hrest (fun d hd => hsame d (List.mem_cons_of_mem _ hd))⟩

theorem chain_unique {heap : Heap} :
    ∀ (cells1 cells2 : List (Nat × Int)) (p : Option Nat),
      Chain heap p cells1 → Chain heap p cells2 → cells1 = cells2
  | [], [], _, _, _ => rfl
  | [], _ :: _, _, h1, h2 => by
    rw [Chain] at h1
    rw [h1] at h2
    exact absurd h2.1 (by simp)
  | _ :: _, [], _, h1, h2 => by
    rw [Chain] at h2
    rw [h2] at h1
    exact absurd h1.1 (by simp)
  | c :: cells1, d :: cells2, p, ⟨hp1, n1, hr1, hc1⟩, ⟨hp2, n2, hr2, hc2⟩ => by
    have hcd : c.1 = d.1 := by
      rw [hp1] at hp2
      exact Option.some.inj hp2
    rw [hcd, hr2] at hr1
    have hnode := Option.some.inj hr1
    have hval : d.2 = c.2 := congrArg Node.val hnode
    have hnext : n2 = n1 := congrArg Node.next hnode
    subst hnext
    have hrest := chain_unique cells1 cells2 n2 hc1 hc2
    have hce : c = d := Prod.ext hcd hval.symm
    rw [hce, hrest]

theorem chain_mem_suffix {heap : Heap} (a : Nat) :
    ∀ (cells : List (Nat × Int)) (p : Option Nat), Chain heap p cells →
      a ∈ cells.map Prod.fst →
      ∃ suf, suf.length ≤ cells.length ∧ Chain heap (some a) suf
  | [], _, _, ha => by simp at ha
  | c :: cells, p, hch, ha => by
    by_cases hac : a = c.1
    · refine ⟨c :: cells, le_refl _, ?_⟩
      obtain ⟨_, nxt, hread, hrest⟩ := hch
      exact ⟨by rw [hac], nxt, hread, hrest⟩
    · obtain ⟨_, nxt, _, hrest⟩ := hch
      have ha2 : a ∈ cells.map Prod.fst := by
        rw [List.map_cons] at ha
        rcases List.mem_cons.mp ha with h | h
        · exact absurd h hac
        · exact h
      obtain ⟨suf, hlen, hsuf⟩ := chain_mem_suffix a cells nxt hrest ha2
      exact ⟨suf, by simp only [List.length_cons]; omega, hsuf⟩

/-- A chain that ends in `NULL` visits no node twice. -/
theorem chain_nodup {heap : Heap} :
    ∀ (cells : List (Nat × Int)) (p : Option Nat), Chain heap p cells →
      (cells.map Prod.fst).Nodup
  | [], _, _ => by simp
  | c :: cells, p, hch => by
    have hall := hch
    obtain ⟨hp, nxt, hread, hrest⟩ := hch
    rw [List.map_cons, List.nodup_cons]
    refine ⟨fun hin => ?_, chain_nodup cells nxt hrest⟩
    obtain ⟨suf, hlen, hsuf⟩ := chain_mem_suffix c.1 cells nxt hrest hin
    have hfull : Chain heap (some c.1) (c :: cells) := ⟨rfl, nxt, hread, hrest⟩
    have heq := chain_unique suf (c :: cells) (some c.1) hsuf hfull
    rw [heq] at hlen
    simp only [List.length_cons] at hlen
    omega

theorem chain_addr_lt {heap : Heap} :
    ∀ (cells : List (Nat × Int)) (p : Option Nat), Chain heap p cells →
      ∀ a ∈ cells.map Prod.fst, a < heap.length
  | [], _, _, a, ha => by simp at ha
  | c :: cells, _, ⟨_, nxt, hread, hrest⟩, a, ha => by
    rw [List.map_cons] at ha
    rcases List.mem_cons.mp ha with h | h
    · rw [h]
      exact read_lt hread
    · exact chain_addr_lt cells nxt hrest a h

theorem chain_length_le {heap : Heap} (cells : List (Nat × Int)) (p : Option Nat)
    (h : Chain heap p cells) : cells.length ≤ heap.length := by
  have hnd := chain_nodup cells p h
  have hlt := chain_addr_lt cells p h
  have hsub : (cells.map Prod.fst).toFinset ⊆ Finset.range heap.length := by
    intro a ha
    exact Finset.mem_range.mpr (hlt a (List.mem_toFinset.mp ha))
  have hcard := Finset.card_le_card hsub
  rw [List.toFinset_card_of_nodup hnd, Finset.card_range, List.length_map] at hcard
  exact hcard

theorem chain_last {heap : Heap} (t : Nat) (v : Int) :
    ∀ (front : List (Nat × Int)) (p : Option Nat), Chain heap p (front ++ [(t, v)]) →
      heap.read t = some ⟨v, none⟩
  | [], _, ⟨_, nxt, hread, hnil⟩ => by
    rw [Chain] at hnil
    rw [hread, hnil]
  | _ :: front, _, ⟨_, nxt, _, hrest⟩ => chain_last t v front nxt hrest

/-- Linking a fresh node after the last node of a chain extends the chain by that node. -/
theorem chain_link {heap : Heap} (t : Nat) (v value : Int) :
    ∀ (front : List (Nat × Int)) (p : Option Nat), Chain heap p (front ++ [(t, v)]) →
      t ∉ front.map Prod.fst →
      Chain (List.set (heap ++ [some ⟨value, none⟩]) t (some ⟨v, some heap.length⟩)) p
        (front ++ [(t, v)] ++ [(heap.length, value)])
  | [], p, ⟨hp, nxt, hread, _⟩, _ => by
    have htlt : t < heap.length := read_lt hread
    refine ⟨hp, some heap.length, ?_, rfl, none, ?_, rfl⟩
    · exact read_set_eq _ _ (by simp; omega)
    · rw [read_set_ne _ _ (by omega)]
      exact read_append_new heap _
  | c :: front, p, ⟨hp, nxt, hread, hrest⟩, hnot => by
    have hclt : c.1 < heap.length := read_lt hread
    have hne : t ≠ c.1 := by
      intro h
      exact hnot (by simp [h])
    have hnot2 : t ∉ front.map Prod.fst := by
      intro h
      exact hnot (by rw [List.map_cons]; exact List.mem_cons_of_mem _ h)
    refine ⟨hp, nxt, ?_, chain_link t v value front nxt hrest hnot2⟩
    rw [read_set_ne _ _ hne, read_append_of_lt _ _ hclt]
    exact hread

/-- The modelled `addResult` on a valid handle: it succeeds, the new node `n` is a fresh
address holding `value` without successor, it is the new tail, the head is kept when set and
is `n` otherwise, and the list is the previous cells followed by the new one. -/
theorem addResult_valid (s : ListState) (cells : List (Nat × Int)) (value : Int)
    (h : ValidHandle s cells) :
    ∃ s2 n, addResult s value = some s2 ∧ s.heap.read n = none ∧
      s2.heap.read n = some ⟨value, none⟩ ∧ s2.tail = some n ∧
      s2.head = (match s.head with
        | some hd => some hd
        | none => some n) ∧
      ValidHandle s2 (cells ++ [(n, value)]) := by
  obtain ⟨heap, head, tail⟩ := s
  obtain ⟨hchain, htail⟩ := h
  simp only at hchain htail
  rcases List.eq_nil_or_concat cells with hnil | ⟨front, last, hcat⟩
  · subst hnil
    rw [Chain] at hchain
    subst hchain
    refine ⟨⟨heap ++ [some (Node.mk value none)], some heap.length, some heap.length⟩,
      heap.length, rfl, read_length heap, read_append_new heap _, rfl, rfl, ?_, ?_⟩
    · exact ⟨rfl, none, read_append_new heap _, rfl⟩
    · simp
  · obtain ⟨t, v⟩ := last
    rw [List.concat_eq_append] at hcat
    subst hcat
    have hlast : heap.read t = some ⟨v, none⟩ := chain_last t v front head hchain
    have htlt : t < heap.length := read_lt hlast
    have hnd := chain_nodup _ _ hchain
    have hnot : t ∉ front.map Prod.fst := by
      rw [List.map_append, List.nodup_append] at hnd
      intro hin
      exact hnd.2.2 hin (by simp)
    have htl : tail = some t := by simpa using htail
    subst htl
    obtain ⟨hd, hhd⟩ : ∃ hd, head = some hd := by
      cases front with
      | nil => exact ⟨t, hchain.1⟩
      | cons c front => exact ⟨c.1, hchain.1⟩
    subst hhd
    have hread1 : Heap.read (heap ++ [some ⟨value, none⟩]) t = some ⟨v, none⟩ := by
      rw [read_append_of_lt _ _ htlt]
      exact hlast
    refine ⟨⟨List.set (heap ++ [some ⟨value, none⟩]) t (some ⟨v, some heap.length⟩),
      some hd, some heap.length⟩, heap.length, ?_, read_length heap, ?_, rfl, rfl, ?_, ?_⟩
    · simp only [addResult, hread1]
    · rw [read_set_ne _ _ (by omega)]
      exact read_append_new heap _
    · exact chain_link t v value front (some hd) hchain hnot
    · simp

theorem addResult_meets_contract : AppendContract addResult := by
  intro s cells value h
  obtain ⟨s2, n, hres, _, _, _, _, hvalid⟩ := addResult_valid s cells value h
  exact ⟨s2, n, hres, hvalid⟩

/-! ## The walk and the release loop on a chain -/

theorem walkLoop_chain {ρ : Type} (sqrt : Int → ρ) (heap : Heap) :
    ∀ (cells : List (Nat × Int)) (fuel : Nat) (p : Option Nat) (out : List ρ),
      Chain heap p cells → cells.length ≤ fuel →
      walkLoop sqrt heap fuel p out = some (out ++ cells.map (fun c => sqrt c.2))
  | [], fuel, p, out, hch, _ => by
    rw [Chain] at hch
    subst hch
    cases fuel <;> simp [walkLoop]
  | c :: cells, 0, _, _, _, hlen => by simp at hlen
  | c :: cells, fuel + 1, p, out, ⟨hp, nxt, hread, hrest⟩, hlen => by
    subst hp
    have hlen2 : cells.length ≤ fuel := by
      simp only [List.length_cons] at hlen
      omega
    simp only [walkLoop, hread]
    rw [walkLoop_chain sqrt heap cells fuel nxt _ hrest hlen2]
    simp

theorem releaseLoop_chain :
    ∀ (cells : List (Nat × Int)) (heap : Heap) (p : Option Nat) (freed : List Nat),
      Chain heap p cells →
      releaseLoop heap p freed
        = some (cells.foldl (fun hp c => Heap.free hp c.1) heap, freed ++ cells.map Prod.fst)
  | [], heap, p, freed, hch => by
    rw [Chain] at hch
    subst hch
    rw [releaseLoop]
    simp
  | c :: cells, heap, p, freed, hch => by
    have hnd := chain_nodup _ _ hch
    obtain ⟨hp, nxt, hread, hrest⟩ := hch
    subst hp
    rw [List.map_cons, List.nodup_cons] at hnd
    have hrest2 : Chain (heap.free c.1) nxt cells := by
      refine chain_frame cells nxt hrest (fun d hd => ?_)
      have hne : c.1 ≠ d.1 := by
        intro heq
        exact hnd.1 (by rw [heq]; exact List.mem_map_of_mem _ hd)
      exact read_set_ne heap none hne
    have ih := releaseLoop_chain cells (heap.free c.1) nxt (freed ++ [c.1]) hrest2
    rw [releaseLoop]
    split
    · rename_i hnone
      rw [hread] at hnone
      exact absurd hnone (by simp)
    · rename_i nd hsome
      rw [hread] at hsome
      have hnode := Option.some.inj hsome
      rw [← hnode, ih]
      simp

theorem teardown_chain (s : ListState) (cells : List (Nat × Int))
    (h : Chain s.heap s.head cells) :
    teardown s
      = some (⟨cells.foldl (fun hp c => Heap.free hp c.1) s.heap, none, none⟩,
          cells.map Prod.fst) := by
  simp [teardown, releaseLoop_chain cells s.heap s.head [] h]

theorem teardown_head_absent (heap : Heap) (tail : Option Nat) :
    teardown ⟨heap, none, tail⟩ = some (⟨heap, none, none⟩, []) := by
  simp [teardown, releaseLoop]

/-- Calls of a callable that meets the append contract keep the handle valid and add one
cell per call, in call order. -/
theorem foldl_tracked_valid (fn : ListState → Int → Option ListState)
    (hfn : AppendContract fn) :
    ∀ (vs calls : List Int) (s : ListState) (cells : List (Nat × Int)),
      ValidHandle s cells →
      ∃ s2 cells2, vs.foldl (tracked fn) (calls, some s) = (calls ++ vs, some s2) ∧
        ValidHandle s2 cells2 ∧ cells2.map Prod.snd = cells.map Prod.snd ++ vs
  | [], calls, s, cells, h => ⟨s, cells, by simp, h, by simp⟩
  | v :: vs, calls, s, cells, h => by
    obtain ⟨s1, n, hcall, hvalid⟩ := hfn s cells v h
    obtain ⟨s2, cells2, hfold, hvalid2, hvals⟩ :=
      foldl_tracked_valid fn hfn vs (calls ++ [v]) s1 (cells ++ [(n, v)]) hvalid
    refine ⟨s2, cells2, ?_, hvalid2, ?_⟩
    · rw [List.foldl_cons]
      have hstep : tracked fn (calls, some s) v = (calls ++ [v], some s1) := by
        simp [tracked, record, hcall]
      rw [hstep, hfold]
      simp
    · rw [hvals]
      simp

theorem validHandle_init : ValidHandle ListState.init [] :=
  ⟨rfl, rfl⟩

/-! ## The produced data -/

theorem toList_setD (arr : Array Int) (i : Nat) (v : Int) :
    (arr.setD i v).toList = arr.toList.set i v := by
  obtain ⟨l⟩ := arr
  simp

theorem fill_toList (f : Nat → Int) (n : Nat) :
    ∀ k, k ≤ n →
      ((List.range k).foldl (fun (arr : Array Int) i => arr.setD i (f i)) (mkArray n 0)).toList
        = (List.range k).map f ++ List.replicate (n - k) 0
  | 0, _ => by simp
  | k + 1, hk => by
    have ih := fill_toList f n k (by omega)
    rw [List.range_succ, List.foldl_append, List.foldl_cons, List.foldl_nil, toList_setD, ih]
    have hlen : ((List.range k).map f).length = k := by simp
    have hrep : List.replicate (n - k) (0 : Int) = 0 :: List.replicate (n - (k + 1)) 0 := by
      have : n - k = (n - (k + 1)) + 1 := by omega
      rw [this, List.replicate_succ]
    rw [hrep, List.set_append_right _ _ (by omega), hlen, Nat.sub_self, List.set_cons_zero]
    simp

theorem produceData_list1 :
    produceData.1.toList = (List.range list1_num).map (fun (i : Nat) => 2 * (i : Int) + 1) := by
  have h := fill_toList (fun i => 2 * (i : Int) + 1) list1_num list1_num (le_refl _)
  rw [Nat.sub_self, List.replicate_zero, List.append_nil] at h
  dsimp only [produceData]
  exact h

theorem produceData_list2 :
    produceData.2.toList = (List.range list2_num).map (fun (i : Nat) => 2 * ((i : Int) + 1)) := by
  have h := fill_toList (fun i => 2 * ((i : Int) + 1)) list2_num list2_num (le_refl _)
  rw [Nat.sub_self, List.replicate_zero, List.append_nil] at h
  dsimp only [produceData]
  exact h

/-! ## Exit status, teardown and the append operation: claims C8 to C10 -/

/-- The body of `main` on any two arrays, when the module is loaded and the symbol
resolved, with a callable that meets the append contract: status 0, the calls are the
merged output, and one line is printed per merged value. -/
theorem mainAfterData_loaded {ρ : Type} (sqrt : Int → ρ) (list1 list2 : Array Int)
    (fn : ListState → Int → Option ListState) (hfn : AppendContract fn) (lib : Nat) :
    mainAfterData sqrt list1 list2 (some lib) fn none
      = some ⟨0, merged list1 list2, (merged list1 list2).map sqrt⟩ := by
  obtain ⟨s2, cells2, hfold, hvalid2, hvals⟩ :=
    foldl_tracked_valid fn hfn (mergeTail list1.toList list2.toList) []
      ListState.init [] validHandle_init
  have hwalk := walkLoop_chain sqrt s2.heap cells2 s2.heap.length s2.head [] hvalid2.1
    (chain_length_le cells2 s2.head hvalid2.1)
  have htear := teardown_chain s2 cells2 hvalid2.1
  have hprinted : cells2.map (fun c => sqrt c.2)
      = (mergeTail list1.toList list2.toList).map sqrt := by
    simp only [List.map_nil, List.nil_append] at hvals
    rw [← hvals, List.map_map]
    rfl
  simp only [mainAfterData, mergeDrive_result, hfold, hwalk, htear, List.nil_append,
    hprinted, merged_eq]

theorem main_eq {ρ : Type} (sqrt : Int → ρ) (lib_handle : Option Nat)
    (fn : ListState → Int → Option ListState) (error : Option String) :
    main sqrt lib_handle fn error
      = mainAfterData sqrt produceData.1 produceData.2 lib_handle fn error :=
  rfl

/-- C8: with the outcomes of loading the module (`lib_handle`) and of resolving the symbol
(`error`) as inputs, `main` exits with status 1, having appended nothing and printed no
result value, when the module is not loaded or the symbol is not resolved; and it returns
status 0 on every run in which both succeed, for a callable that meets the append
contract. -/
theorem main_exit_status {ρ : Type} (sqrt : Int → ρ)
    (fn : ListState → Int → Option ListState) :
    (∀ error, main sqrt none fn error = some ⟨1, [], []⟩) ∧
    (∀ lib msg, main sqrt (some lib) fn (some msg) = some ⟨1, [], []⟩) ∧
    (AppendContract fn →
      ∀ lib, ∃ o, main sqrt (some lib) fn none = some o ∧ o.status = 0) := by
  refine ⟨fun error => rfl, fun lib msg => rfl, fun hfn lib => ?_⟩
  rw [main_eq, mainAfterData_loaded sqrt _ _ fn hfn lib]
  exact ⟨_, rfl, rfl⟩

theorem main_exit_status_witness :
    AppendContract addResult ∧
    ∃ o, main (fun v => v) (some 0) addResult none = some o ∧ o.status = 0 :=
  ⟨addResult_meets_contract,
    (main_exit_status (fun v => v) addResult).2.2 addResult_meets_contract 0⟩

/-- C9: teardown of a list (the chain from head ends in `NULL`) frees its nodes once each,
in list order, and leaves head and tail absent; teardown of a handle whose head is absent
runs no iteration, frees nothing, keeps the heap and leaves head and tail absent; so a
second teardown changes nothing. -/
theorem teardown_empties (s : ListState) (cells : List (Nat × Int))
    (h : Chain s.heap s.head cells) :
    (∃ heap2, teardown s = some (⟨heap2, none, none⟩, cells.map Prod.fst) ∧
      teardown ⟨heap2, none, none⟩ = some (⟨heap2, none, none⟩, [])) ∧
    (∀ heap tail, teardown ⟨heap, none, tail⟩ = some (⟨heap, none, none⟩, [])) :=
  ⟨⟨_, teardown_chain s cells h, teardown_head_absent _ none⟩, teardown_head_absent⟩

theorem teardown_empties_witness :
    Chain [some ⟨1, some 1⟩, some ⟨2, none⟩] (some 0) [(0, 1), (1, 2)] ∧
    ((∃ heap2, teardown ⟨[some ⟨1, some 1⟩, some ⟨2, none⟩], some 0, some 1⟩
          = some (⟨heap2, none, none⟩, [0, 1]) ∧
        teardown ⟨heap2, none, none⟩ = some (⟨heap2, none, none⟩, [])) ∧
      (∀ heap tail, teardown ⟨heap, none, tail⟩ = some (⟨heap, none, none⟩, []))) :=
  ⟨⟨rfl, some 1, rfl, rfl, none, rfl, rfl⟩,
    teardown_empties ⟨[some ⟨1, some 1⟩, some ⟨2, none⟩], some 0, some 1⟩ [(0, 1), (1, 2)]
      ⟨rfl, some 1, rfl, rfl, none, rfl, rfl⟩⟩

/-- C10: the append operation `addResult`, on a head/tail pair that is both empty or a valid
non-empty list whose tail has no successor, and for every value: it creates a new node `n`
holding the value, the tail becomes `n`, the head is unchanged if it was set and is `n`
otherwise, and the list is the previous cells followed by the new one, so its values are
the previous values followed by the new value. -/
theorem addResult_appends (s : ListState) (cells : List (Nat × Int)) (value : Int)
    (h : ValidHandle s cells) :
    ∃ s2 n, addResult s value = some s2 ∧ s.heap.read n = none ∧
      s2.heap.read n = some ⟨value, none⟩ ∧ s2.tail = some n ∧
      s2.head = (match s.head with
        | some hd => some hd
        | none => some n) ∧
      ValidHandle s2 (cells ++ [(n, value)]) ∧
      (cells ++ [(n, value)]).map Prod.snd = cells.map Prod.snd ++ [value] := by
  obtain ⟨s2, n, h1, h2, h3, h4, h5, h6⟩ := addResult_valid s cells value h
  exact ⟨s2, n, h1, h2, h3, h4, h5, h6, by simp⟩

theorem addResult_appends_witness :
    ValidHandle ⟨[some ⟨1, some 1⟩, some ⟨2, none⟩], some 0, some 1⟩ [(0, 1), (1, 2)] ∧
    ∃ s2 n, addResult ⟨[some ⟨1, some 1⟩, some ⟨2, none⟩], some 0, some 1⟩ 7 = some s2 ∧
      Heap.read [some ⟨1, some 1⟩, some ⟨2, none⟩] n = none ∧
      s2.heap.read n = some ⟨7, none⟩ ∧ s2.tail = some n ∧
      s2.head = some 0 ∧
      ValidHandle s2 ([(0, 1), (1, 2)] ++ [(n, 7)]) ∧
      (([(0, 1), (1, 2)] : List (Nat × Int)) ++ [(n, 7)]).map Prod.snd = [1, 2] ++ [7] :=
  ⟨⟨⟨rfl, some 1, rfl, rfl, none, rfl, rfl⟩, rfl⟩,
    addResult_appends ⟨[some ⟨1, some 1⟩, some ⟨2, none⟩], some 0, some 1⟩ [(0, 1), (1, 2)] 7
      ⟨⟨rfl, some 1, rfl, rfl, none, rfl, rfl⟩, rfl⟩⟩

/-! ## Further properties of the list-level merge -/

theorem mergeTail_comm (xs ys : List Int) : mergeTail xs ys = mergeTail ys xs := by
  induction xs, ys using mergeTail.induct with
  | case1 ys => rw [mergeTail_nil_right, mergeTail]
  | case2 x xs => simp [mergeTail]
  | case3 x xs y ys hlt ih =>
    have h1 : ¬ y < x := by omega
    have h2 : y > x := by omega
    rw [mergeTail, if_pos hlt, mergeTail, if_neg h1, if_pos h2, ih]
  | case4 x xs y ys hlt hgt ih =>
    have h1 : y < x := by omega
    rw [mergeTail, if_neg hlt, if_pos hgt, mergeTail, if_pos h1, ih]
  | case5 x xs y ys hlt hgt ih =>
    have hxy : x = y := by omega
    subst hxy
    rw [mergeTail, if_neg hlt, if_neg hgt, mergeTail, if_neg hlt, if_neg hgt, ih]

theorem mergeTail_self (xs : List Int) : mergeTail xs xs = xs := by
  induction xs with
  | nil => simp [mergeTail]
  | cons x xs ih => simp [mergeTail, ih]

theorem sublist_mergeTail_left (xs ys : List Int) : xs.Sublist (mergeTail xs ys) := by
  induction xs, ys using mergeTail.induct with
  | case1 ys => simp
  | case2 x xs => simp [mergeTail]
  | case3 x xs y ys hlt ih =>
    rw [mergeTail, if_pos hlt]
    exact ih.cons₂ x
  | case4 x xs y ys hlt hgt ih =>
    rw [mergeTail, if_neg hlt, if_pos hgt]
    exact ih.cons y
  | case5 x xs y ys hlt hgt ih =>
    rw [mergeTail, if_neg hlt, if_neg hgt]
    exact ih.cons₂ x

theorem sublist_mergeTail_right (xs ys : List Int) : ys.Sublist (mergeTail xs ys) := by
  rw [mergeTail_comm]
  exact sublist_mergeTail_left ys xs

theorem mergeTail_pairwise_le (xs ys : List Int) (hx : xs.Pairwise (· ≤ ·))
    (hy : ys.Pairwise (· ≤ ·)) : (mergeTail xs ys).Pairwise (· ≤ ·) := by
  induction xs, ys using mergeTail.induct with
  | case1 ys => simpa [mergeTail] using hy
  | case2 x xs => simpa [mergeTail] using hx
  | case3 x xs y ys hlt ih =>
    rw [mergeTail, if_pos hlt, List.pairwise_cons]
    have hx2 := List.pairwise_cons.mp hx
    have hy2 := List.pairwise_cons.mp hy
    refine ⟨fun z hz => ?_, ih hx2.2 hy⟩
    rcases (mem_mergeTail z xs (y :: ys)).mp hz with h | h
    · exact hx2.1 z h
    · rcases List.mem_cons.mp h with h | h
      · omega
      · have := hy2.1 z h
        omega
  | case4 x xs y ys hlt hgt ih =>
    rw [mergeTail, if_neg hlt, if_pos hgt, List.pairwise_cons]
    have hx2 := List.pairwise_cons.mp hx
    have hy2 := List.pairwise_cons.mp hy
    refine ⟨fun z hz => ?_, ih hx hy2.2⟩
    rcases (mem_mergeTail z (x :: xs) ys).mp hz with h | h
    · rcases List.mem_cons.mp h with h | h
      · omega
      · have := hx2.1 z h
        omega
    · exact hy2.1 z h
  | case5 x xs y ys hlt hgt ih =>
    rw [mergeTail, if_neg hlt, if_neg hgt, List.pairwise_cons]
    have hx2 := List.pairwise_cons.mp hx
    have hy2 := List.pairwise_cons.mp hy
    refine ⟨fun z hz => ?_, ih hx2.2 hy2.2⟩
    rcases (mem_mergeTail z xs ys).mp hz with h | h
    · exact hx2.1 z h
    · have := hy2.1 z h
      omega

/-! ## Inputs outside the precondition, order, symmetry: claims C11, C14 to C17 -/

/-- C11: the merge removes duplicates only across the two inputs, never inside one: on
`A = [1,1,3]`, which is not strictly increasing, with `B` empty, the merged output is
`[1,1,3]`, whose first two values are adjacent and equal. -/
theorem merged_keeps_inner_duplicate :
    ¬ (#[1, 1, 3] : Array Int).toList.Pairwise (· < ·) ∧
    merged #[1, 1, 3] #[] = [1, 1, 3] ∧
    (merged #[1, 1, 3] #[])[0]? = (merged #[1, 1, 3] #[])[1]? ∧
    ¬ (merged #[1, 1, 3] #[]).Pairwise (· < ·) := by
  have h : merged #[1, 1, 3] #[] = [1, 1, 3] := by
    rw [merged_eq]
    exact mergeTail_nil_right _
  rw [h]
  exact ⟨by decide, rfl, rfl, by decide⟩

/-- C14: with no sortedness assumed, the merge keeps the order of each input: `A` is a
subsequence of the merged output, and so is `B`. -/
theorem merged_keeps_order (A B : Array Int) :
    A.toList.Sublist (merged A B) ∧ B.toList.Sublist (merged A B) := by
  rw [merged_eq]
  exact ⟨sublist_mergeTail_left _ _, sublist_mergeTail_right _ _⟩

/-- C15: with no sortedness assumed, merging `A` with `B` gives the same list of values as
merging `B` with `A`. -/
theorem merged_comm (A B : Array Int) : merged A B = merged B A := by
  rw [merged_eq, merged_eq]
  exact mergeTail_comm _ _

/-- C16: merging a sequence with itself returns it unchanged, whatever its order and
duplicates. -/
theorem merged_self (A : Array Int) : merged A A = A.toList := by
  rw [merged_eq]
  exact mergeTail_self _

/-- C17: for non-decreasing arrays `A` and `B` (repeated values allowed inside each), the
merged output is non-decreasing. -/
theorem merged_nondecreasing (A B : Array Int)
    (hA : A.toList.Pairwise (· ≤ ·)) (hB : B.toList.Pairwise (· ≤ ·)) :
    (merged A B).Pairwise (· ≤ ·) := by
  rw [merged_eq]
  exact mergeTail_pairwise_le _ _ hA hB

theorem merged_nondecreasing_witness :
    (#[1, 1, 3] : Array Int).toList.Pairwise (· ≤ ·) ∧
    (#[1, 2, 2] : Array Int).toList.Pairwise (· ≤ ·) ∧
    (merged #[1, 1, 3] #[1, 2, 2]).Pairwise (· ≤ ·) :=
  ⟨by decide, by decide, merged_nondecreasing _ _ (by decide) (by decide)⟩

/-! ## The walk over the result list and the program's own data: claims C12, C13 -/

/-- C12: the post-processing walk over a list (the chain from head ends in `NULL`) is
complete and read-only: it prints one line per node, the number of lines is the length of
the list, line `i` is the transform of the value of node `i`, and the handle and heap
after the walk are the ones before it, so the list still has the same cells in the same
order. -/
theorem postProcess_complete {ρ : Type} (sqrt : Int → ρ) (s : ListState)
    (cells : List (Nat × Int)) (h : Chain s.heap s.head cells) :
    ∃ s2 printed, postProcess sqrt s = some (s2, printed) ∧
      walkLoop sqrt s.heap s.heap.length s.head [] = some printed ∧
      printed.length = cells.length ∧
      (∀ i : Nat, printed[i]? = (cells[i]?).map (fun (c : Nat × Int) => sqrt c.2)) ∧
      s2 = s ∧ Chain s2.heap s2.head cells := by
  have hwalk := walkLoop_chain sqrt s.heap cells s.heap.length s.head [] h
    (chain_length_le cells s.head h)
  rw [List.nil_append] at hwalk
  refine ⟨s, cells.map (fun c => sqrt c.2), ?_, hwalk, by simp,
    fun i => List.getElem?_map _ _ _, rfl, h⟩
  simp only [postProcess, hwalk]

theorem postProcess_complete_witness :
    Chain [some ⟨1, some 1⟩, some ⟨2, none⟩] (some 0) [(0, 1), (1, 2)] ∧
    ∃ s2 printed,
      postProcess (fun v => v) ⟨[some ⟨1, some 1⟩, some ⟨2, none⟩], some 0, some 1⟩
        = some (s2, printed) ∧
      walkLoop (fun v => v) [some ⟨1, some 1⟩, some ⟨2, none⟩] 2 (some 0) [] = some printed ∧
      printed.length = 2 ∧
      (∀ i : Nat, printed[i]? =
        (([(0, 1), (1, 2)] : List (Nat × Int))[i]?).map (fun (c : Nat × Int) => c.2)) ∧
      s2 = ⟨[some ⟨1, some 1⟩, some ⟨2, none⟩], some 0, some 1⟩ ∧
      Chain s2.heap s2.head [(0, 1), (1, 2)] :=
  ⟨⟨rfl, some 1, rfl, rfl, none, rfl, rfl⟩,
    postProcess_complete (fun v => v) ⟨[some ⟨1, some 1⟩, some ⟨2, none⟩], some 0, some 1⟩
      [(0, 1), (1, 2)] ⟨rfl, some 1, rfl, rfl, none, rfl, rfl⟩⟩

theorem mergeTail_cons_right_of_gt (y : Int) (xs ys : List Int) (h : ∀ x ∈ xs, y < x) :
    mergeTail xs (y :: ys) = y :: mergeTail xs ys := by
  cases xs with
  | nil => simp [mergeTail]
  | cons x xs =>
    have hx : y < x := h x (List.mem_cons_self _ _)
    have h1 : ¬ x < y := by omega
    have h2 : x > y := hx
    rw [mergeTail, if_neg h1, if_pos h2]

/-- Odd numbers `2i+1` merged with even numbers `2(i+1)`, for `i` from `k` over `n` steps,
give the consecutive integers from `2k+1`. -/
theorem mergeTail_odd_even :
    ∀ (n k : Nat),
      mergeTail ((List.range' k n).map (fun (i : Nat) => 2 * (i : Int) + 1))
          ((List.range' k n).map (fun (i : Nat) => 2 * ((i : Int) + 1)))
        = (List.range' (2 * k) (2 * n)).map (fun (i : Nat) => (i : Int) + 1)
  | 0, k => by simp [mergeTail]
  | n + 1, k => by
    have ih := mergeTail_odd_even n (k + 1)
    have hgt : ∀ x ∈ (List.range' (k + 1) n).map (fun (i : Nat) => 2 * (i : Int) + 1),
        2 * ((k : Int) + 1) < x := by
      intro x hx
      obtain ⟨i, hi, rfl⟩ := List.mem_map.mp hx
      have := (List.mem_range'_1.mp hi).1
      omega
    have hlt : 2 * (k : Int) + 1 < 2 * ((k : Int) + 1) := by omega
    have h2 : 2 * (n + 1) = (2 * n + 1) + 1 := by omega
    have h3 : 2 * (k + 1) = 2 * k + 1 + 1 := by omega
    rw [List.range'_succ, List.map_cons, List.map_cons, mergeTail, if_pos hlt,
      mergeTail_cons_right_of_gt _ _ _ hgt, ih, h2, List.range'_succ, List.range'_succ,
      List.map_cons, List.map_cons, h3]
    congr 1

theorem map_range_pairwise_lt (f : Nat → Int) (hf : ∀ a b, a < b → f a < f b) (n : Nat) :
    ((List.range n).map f).Pairwise (· < ·) :=
  List.pairwise_map.mpr ((List.pairwise_lt_range n).imp (fun h => hf _ _ h))

theorem produceData_merged :
    merged produceData.1 produceData.2
      = (List.range 2000).map (fun (i : Nat) => (i : Int) + 1) := by
  have h := mergeTail_odd_even list1_num 0
  rw [← List.range_eq_range', ← List.range_eq_range'] at h
  rw [merged_eq, produceData_list1, produceData_list2]
  exact h

/-- C13: for the arrays filled by `produceData`, both are strictly increasing and share no
value; at every pair of positions the elements differ, so each iteration of the first loop
takes the `<` or the `>` branch and never the equal branch; and the values appended are
exactly 1, 2, ..., 2000 in that order. -/
theorem produceData_run :
    produceData.1.toList.Pairwise (· < ·) ∧
    produceData.2.toList.Pairwise (· < ·) ∧
    List.Disjoint produceData.1.toList produceData.2.toList ∧
    (∀ (i : Fin produceData.1.size) (j : Fin produceData.2.size),
      produceData.1.get i < produceData.2.get j ∨
        produceData.1.get i > produceData.2.get j) ∧
    merged produceData.1 produceData.2
      = (List.range 2000).map (fun (i : Nat) => (i : Int) + 1) ∧
    (merged produceData.1 produceData.2).length = 2000 := by
  have hodd : ∀ v ∈ produceData.1.toList, ∃ i : Nat, v = 2 * (i : Int) + 1 := by
    intro v hv
    rw [produceData_list1] at hv
    obtain ⟨i, _, rfl⟩ := List.mem_map.mp hv
    exact ⟨i, rfl⟩
  have heven : ∀ v ∈ produceData.2.toList, ∃ i : Nat, v = 2 * ((i : Int) + 1) := by
    intro v hv
    rw [produceData_list2] at hv
    obtain ⟨i, _, rfl⟩ := List.mem_map.mp hv
    exact ⟨i, rfl⟩
  refine ⟨?_, ?_, ?_, ?_, produceData_merged, ?_⟩
  · rw [produceData_list1]
    exact map_range_pairwise_lt _ (fun a b hab => by omega) _
  · rw [produceData_list2]
    exact map_range_pairwise_lt _ (fun a b hab => by omega) _
  · intro v h1 h2
    obtain ⟨i, hi⟩ := hodd v h1
    obtain ⟨j, hj⟩ := heven v h2
    omega
  · intro i j
    obtain ⟨a, ha⟩ := hodd _ (Array.getElem_mem_toList produceData.1 i.2)
    obtain ⟨b, hb⟩ := heven _ (Array.getElem_mem_toList produceData.2 j.2)
    have ha2 : produceData.1.get i = 2 * (a : Int) + 1 := ha
    have hb2 : produceData.2.get j = 2 * ((b : Int) + 1) := hb
    omega
  · rw [produceData_merged, List.length_map, List.length_range]

/-! ## The position counters: claim C18 -/

theorem bothStep_some {σ : Type} (fn : σ → Int → σ) (list1 list2 : Array Int)
    (d d2 : Drive σ) (h : bothStep fn list1 list2 d = some d2) :
    d.pos1 < list1.size ∧ d.pos2 < list2.size ∧
      d2.pos1 ≤ list1.size ∧ d2.pos2 ≤ list2.size ∧
      (d2.pos1 + d2.pos2 = d.pos1 + d.pos2 + 1 ∨
        d2.pos1 + d2.pos2 = d.pos1 + d.pos2 + 2) := by
  unfold bothStep at h
  split at h
  · rename_i hg
    split at h
    · cases h
      refine ⟨hg.1, hg.2, ?_, ?_, ?_⟩ <;> simp only <;> omega
    · split at h
      · cases h
        refine ⟨hg.1, hg.2, ?_, ?_, ?_⟩ <;> simp only <;> omega
      · cases h
        refine ⟨hg.1, hg.2, ?_, ?_, ?_⟩ <;> simp only <;> omega
  · cases h

theorem rest1Step_some {σ : Type} (fn : σ → Int → σ) (list1 : Array Int)
    (d d2 : Drive σ) (h : rest1Step fn list1 d = some d2) :
    d.pos1 < list1.size ∧ d2.pos1 ≤ list1.size ∧ d2.pos2 = d.pos2 ∧
      d2.pos1 + d2.pos2 = d.pos1 + d.pos2 + 1 := by
  unfold rest1Step at h
  split at h
  · rename_i hg
    cases h
    refine ⟨hg, ?_, rfl, ?_⟩ <;> simp only <;> omega
  · cases h

theorem rest2Step_some {σ : Type} (fn : σ → Int → σ) (list2 : Array Int)
    (d d2 : Drive σ) (h : rest2Step fn list2 d = some d2) :
    d.pos2 < list2.size ∧ d2.pos2 ≤ list2.size ∧ d2.pos1 = d.pos1 ∧
      d2.pos1 + d2.pos2 = d.pos1 + d.pos2 + 1 := by
  unfold rest2Step at h
  split at h
  · rename_i hg
    cases h
    refine ⟨hg, ?_, rfl, ?_⟩ <;> simp only <;> omega
  · cases h

theorem rest1Step_none {σ : Type} (fn : σ → Int → σ) (list1 : Array Int)
    (d : Drive σ) (h : rest1Step fn list1 d = none) : list1.size ≤ d.pos1 := by
  unfold rest1Step at h
  split at h
  · cases h
  · omega

theorem rest2Step_none {σ : Type} (fn : σ → Int → σ) (list2 : Array Int)
    (d : Drive σ) (h : rest2Step fn list2 d = none) : list2.size ≤ d.pos2 := by
  unfold rest2Step at h
  split at h
  · cases h
  · omega

/-- Every state at the head of a loop has both counters within the array bounds, and in
the third loop the first array is used up. -/
theorem visits_in_range {σ : Type} (fn : σ → Int → σ) (list1 list2 : Array Int)
    (result : σ) (k : Nat) (d : Drive σ) (h : Visits fn list1 list2 result k d) :
    d.pos1 ≤ list1.size ∧ d.pos2 ≤ list2.size ∧ (k = 3 → list1.size ≤ d.pos1) := by
  induction h with
  | start => exact ⟨Nat.zero_le _, Nat.zero_le _, fun hk => absurd hk (by decide)⟩
  | both _ hstep ih =>
    obtain ⟨_, _, h1, h2, _⟩ := bothStep_some fn list1 list2 _ _ hstep
    exact ⟨h1, h2, fun hk => absurd hk (by decide)⟩
  | bothDone _ _ ih => exact ⟨ih.1, ih.2.1, fun hk => absurd hk (by decide)⟩
  | rest1 _ hstep ih =>
    obtain ⟨_, h1, h2, _⟩ := rest1Step_some fn list1 _ _ hstep
    exact ⟨h1, by rw [h2]; exact ih.2.1, fun hk => absurd hk (by decide)⟩
  | rest1Done _ hnone ih => exact ⟨ih.1, ih.2.1, fun _ => rest1Step_none fn list1 _ hnone⟩
  | rest2 _ hstep ih =>
    obtain ⟨_, h1, h2, _⟩ := rest2Step_some fn list2 _ _ hstep
    exact ⟨by rw [h2]; exact ih.1, h1, fun hk => by rw [h2]; exact ih.2.2 hk⟩

/-- The first loop as a function runs through the iterations of `bothStep`. -/
theorem visits_bothLoop {σ : Type} (fn : σ → Int → σ) (list1 list2 : Array Int)
    (result : σ) (pos1 pos2 : Nat) (r : σ) :
    Visits fn list1 list2 result 1 ⟨pos1, pos2, r⟩ →
      Visits fn list1 list2 result 2 (bothLoop fn list1 list2 pos1 pos2 r) := by
  induction pos1, pos2, r using bothLoop.induct fn list1 list2 with
  | case1 pos1 pos2 r h hlt ih =>
    intro hv
    rw [bothLoop, dif_pos h, if_pos hlt]
    exact ih (Visits.both hv (by simp only [bothStep, dif_pos h, if_pos hlt]))
  | case2 pos1 pos2 r h hlt hgt ih =>
    intro hv
    rw [bothLoop, dif_pos h, if_neg hlt, if_pos hgt]
    exact ih (Visits.both hv (by simp only [bothStep, dif_pos h, if_neg hlt, if_pos hgt]))
  | case3 pos1 pos2 r h hlt hgt ih =>
    intro hv
    rw [bothLoop, dif_pos h, if_neg hlt, if_neg hgt]
    exact ih (Visits.both hv (by simp only [bothStep, dif_pos h, if_neg hlt, if_neg hgt]))
  | case4 pos1 pos2 r h =>
    intro hv
    rw [bothLoop, dif_neg h]
    exact Visits.bothDone hv (by simp only [bothStep, dif_neg h])

theorem visits_rest1Loop {σ : Type} (fn : σ → Int → σ) (list1 list2 : Array Int)
    (result : σ) (pos2 : Nat) (pos1 : Nat) (r : σ) :
    Visits fn list1 list2 result 2 ⟨pos1, pos2, r⟩ →
      Visits fn list1 list2 result 3
        ⟨(rest1Loop fn list1 pos1 r).1, pos2, (rest1Loop fn list1 pos1 r).2⟩ := by
  induction pos1, r using rest1Loop.induct fn list1 with
  | case1 pos1 r h ih =>
    intro hv
    rw [rest1Loop, dif_pos h]
    exact ih (Visits.rest1 hv (by simp only [rest1Step, dif_pos h]))
  | case2 pos1 r h =>
    intro hv
    rw [rest1Loop, dif_neg h]
    exact Visits.rest1Done hv (by simp only [rest1Step, dif_neg h])

theorem visits_rest2Loop {σ : Type} (fn : σ → Int → σ) (list1 list2 : Array Int)
    (result : σ) (pos1 : Nat) (pos2 : Nat) (r : σ) :
    Visits fn list1 list2 result 3 ⟨pos1, pos2, r⟩ →
      Visits fn list1 list2 result 3
          ⟨pos1, (rest2Loop fn list2 pos2 r).1, (rest2Loop fn list2 pos2 r).2⟩ ∧
        rest2Step fn list2
          ⟨pos1, (rest2Loop fn list2 pos2 r).1, (rest2Loop fn list2 pos2 r).2⟩ = none := by
  induction pos2, r using rest2Loop.induct fn list2 with
  | case1 pos2 r h ih =>
    intro hv
    rw [rest2Loop, dif_pos h]
    exact ih (Visits.rest2 hv (by simp only [rest2Step, dif_pos h]))
  | case2 pos2 r h =>
    intro hv
    rw [rest2Loop, dif_neg h]
    exact ⟨hv, by simp only [rest2Step, dif_neg h]⟩

/-- The state returned by `mergeDrive` is the state in which the third loop ends. -/
theorem visits_mergeDrive {σ : Type} (fn : σ → Int → σ) (list1 list2 : Array Int)
    (result : σ) :
    Visits fn list1 list2 result 3 (mergeDrive fn list1 list2 result) ∧
      rest2Step fn list2 (mergeDrive fn list1 list2 result) = none := by
  have h1 := visits_bothLoop fn list1 list2 result 0 0 result Visits.start
  have h2 := visits_rest1Loop fn list1 list2 result
    (bothLoop fn list1 list2 0 0 result).pos2 (bothLoop fn list1 list2 0 0 result).pos1
    (bothLoop fn list1 list2 0 0 result).result h1
  exact visits_rest2Loop fn list1 list2 result _ _ _ h2

/-- C18: the position counters stay in range and use up both inputs. In every state at
the head of a loop `pos1 <= lenA` and `pos2 <= lenB`; an iteration runs only with the
indices it reads below the length of their array (`list1[pos1]` and `list2[pos2]` in the
first loop, `list1[pos1]` in the second, `list2[pos2]` in the third) and raises
`pos1 + pos2` by 1 or 2; and the state returned by `mergeDrive` is the one in which the
third loop ends, with `pos1 = lenA` and `pos2 = lenB`. -/
theorem drive_positions {σ : Type} (fn : σ → Int → σ) (list1 list2 : Array Int)
    (result : σ) :
    (∀ k d, Visits fn list1 list2 result k d →
      d.pos1 ≤ list1.size ∧ d.pos2 ≤ list2.size) ∧
    (∀ d d2, bothStep fn list1 list2 d = some d2 →
      d.pos1 < list1.size ∧ d.pos2 < list2.size ∧
        (d2.pos1 + d2.pos2 = d.pos1 + d.pos2 + 1 ∨
          d2.pos1 + d2.pos2 = d.pos1 + d.pos2 + 2)) ∧
    (∀ d d2, rest1Step fn list1 d = some d2 →
      d.pos1 < list1.size ∧ d2.pos1 + d2.pos2 = d.pos1 + d.pos2 + 1) ∧
    (∀ d d2, rest2Step fn list2 d = some d2 →
      d.pos2 < list2.size ∧ d2.pos1 + d2.pos2 = d.pos1 + d.pos2 + 1) ∧
    Visits fn list1 list2 result 3 (mergeDrive fn list1 list2 result) ∧
    rest2Step fn list2 (mergeDrive fn list1 list2 result) = none ∧
    (mergeDrive fn list1 list2 result).pos1 = list1.size ∧
    (mergeDrive fn list1 list2 result).pos2 = list2.size := by
  have hend := visits_mergeDrive fn list1 list2 result
  have hinv := visits_in_range fn list1 list2 result 3 _ hend.1
  have hp2 := rest2Step_none fn list2 _ hend.2
  have hp1 := hinv.2.2 rfl
  refine ⟨fun k d hv => ?_, fun d d2 hs => ?_, fun d d2 hs => ?_, fun d d2 hs => ?_,
    hend.1, hend.2, by omega, by omega⟩
  · have h := visits_in_range fn list1 list2 result k d hv
    exact ⟨h.1, h.2.1⟩
  · obtain ⟨h1, h2, _, _, h5⟩ := bothStep_some fn list1 list2 d d2 hs
    exact ⟨h1, h2, h5⟩
  · obtain ⟨h1, _, _, h4⟩ := rest1Step_some fn list1 d d2 hs
    exact ⟨h1, h4⟩
  · obtain ⟨h1, _, _, h4⟩ := rest2Step_some fn list2 d d2 hs
    exact ⟨h1, h4⟩

theorem drive_positions_witness :
    bothStep record #[1, 3] #[2] ⟨0, 0, []⟩ = some ⟨1, 0, [1]⟩ ∧
    (0 < (#[1, 3] : Array Int).size ∧ 0 < (#[2] : Array Int).size ∧
      (1 + 0 = 0 + 0 + 1 ∨ 1 + 0 = 0 + 0 + 2)) ∧
    (mergeDrive record #[1, 3] #[2] []).pos1 = 2 ∧
    (mergeDrive record #[1, 3] #[2] []).pos2 = 1 :=
  ⟨rfl, (drive_positions record #[1, 3] #[2] []).2.1 ⟨0, 0, []⟩ ⟨1, 0, [1]⟩ rfl,
    (drive_positions record #[1, 3] #[2] []).2.2.2.2.2.2.1,
    (drive_positions record #[1, 3] #[2] []).2.2.2.2.2.2.2⟩

end TestDl
